import Mathlib

/-!
Shallow embedding of `src/server.js` (the "meta hunter" discovery pipeline).

Conventions of the embedding:
* JS strings are Lean `String`s; `toUpperCase` is modelled by `Char.toUpper`
  character-wise (ASCII-faithful).
* A JS value that may be `undefined` is an `Option`.
* JS `Map` objects and plain objects used as dictionaries are association
  lists that keep insertion order (`set`/`[k] = v` on an existing key updates
  in place, a new key is appended) — the JS-guaranteed order for `Map` and
  for non-index string keys of plain objects.
* `Array.prototype.sort` is modelled by a stable insertion sort, matching the
  ES2019 stability guarantee.
* Fallible upstream calls (axios, groq) are `Except Unit` values / result
  oracles passed in as parameters.
-/

namespace Hunter

/-! ## Data model (payload shapes used by server.js) -/

/-- One entry of a harvest response (`token-profiles` / `token-boosts`):
`{ chainId, tokenAddress, icon?, header?, description? }`. -/
structure RawCandidate where
  chainId : String
  tokenAddress : String
  icon : Option String
  header : Option String
  description : Option String
deriving DecidableEq, Repr

/-- Shape of `pair.baseToken` in an enrichment response. -/
structure BaseToken where
  name : String
  symbol : String
  address : String
deriving DecidableEq, Repr

/-- Shape of `pair.info` in an enrichment response (may be absent). -/
structure PairInfo where
  imageUrl : Option String
  header : Option String
deriving DecidableEq, Repr

/-- One pair record of `latest/dex/tokens`: `liquidityUsd` models
`p.liquidity?.usd` (absent when `liquidity` or `usd` is missing). -/
structure Pair where
  baseToken : BaseToken
  url : String
  liquidityUsd : Option Int
  info : Option PairInfo
deriving DecidableEq, Repr

/-- The object stored in `uniqueTokensMap` (src/server.js:135-143).
Note it has `name`/`symbol`/`address`/`url`/`icon`/`header`/`description`
fields and nothing else — in particular no `liquidity` field. -/
structure CanonicalRecord where
  name : String
  symbol : String
  address : String
  url : String
  icon : Option String
  header : Option String
  description : Option String
deriving DecidableEq, Repr

/-! ## UTILS (src/server.js:21-25) -/

/-- Model of `chunkArray(arr, size)`, which builds an array of length
`Math.ceil(len/size)` whose entry `i` is `arr.slice(i*size, i*size+size)`.
For `size > 0`,
`(len + size - 1) / size` in `Nat` is exactly `Math.ceil(len / size)`. -/
def chunkArray (arr : List α) (size : Nat) : List (List α) :=
  (List.range ((arr.length + size - 1) / size)).map
    (fun i => (arr.drop (i * size)).take size)

/-- The per-chunk lambda of src/server.js:118-124: a failed lookup is caught
and contributes `[]`; then src/server.js:126-127 concatenates all batches. -/
def runBatches (enrich : List String → Except Unit (List Pair))
    (chunks : List (List String)) : List Pair :=
  (chunks.map (fun c => match enrich c with
    | Except.ok pairs => pairs
    | Except.error _ => [])).flatten

/-! ## PATTERN ENGINE (src/server.js:28-62) -/

/-- The `stopWords` array of src/server.js:29-34. -/
def stopWords : List String :=
  ["THE", "AND", "FOR", "SOL", "TOKEN", "COIN", "MEME", "PRO", "MAX",
   "BULL", "PUMP", "MOON", "DEV", "CTO", "COMMUNITY", "OFFICIAL",
   "REAL", "NEW", "FINANCE", "SWAP", "PROTOCOL", "BETA", "ALPHA", "BASE",
   "SOLANA", "COINS", "GROUP", "TEAM", "LIVE", "VIDEO", "GAME", "AI", "CHAT"]

/-- Model of `split('($')[0]` on the character list: everything before the first
occurrence of the two-character marker. -/
def beforeTicker : List Char → List Char
  | [] => []
  | '(' :: '$' :: _ => []
  | c :: rest => c :: beforeTicker rest

/-- One step of `.replace(/[^A-Z ]/g, " ")`: any character that is not an
upper-case Latin letter and not a space becomes a space. -/
def cleanChar (c : Char) : Char :=
  if ('A' ≤ c ∧ c ≤ 'Z') ∨ c = ' ' then c else ' '

/-- Split at single spaces, keeping empty chunks.  The JS code splits on
`/\s+/` (runs of whitespace); after `cleanChar` the only whitespace left is
`' '`, and the two conventions differ only in empty chunks, which the
`length > 2` filter below removes in either case. -/
def splitOnSpace : List Char → List (List Char)
  | [] => [[]]
  | c :: rest =>
    let r := splitOnSpace rest
    if c = ' ' then [] :: r
    else (c :: r.headD []) :: r.tail

/-- Model of `t.name.toUpperCase().split('($')[0].replace(...).split(/\s+/)`
(src/server.js:39-40), as a list of words. -/
def recordWords (name : String) : List String :=
  (splitOnSpace ((beforeTicker (name.data.map Char.toUpper)).map cleanChar)).map
    (fun cs => String.mk cs)

/-- The counting condition of src/server.js:43:
`w.length > 2 && w.length < 15 && !stopWords.includes(w)`. -/
def qualifies (w : String) : Bool :=
  decide (2 < w.length ∧ w.length < 15 ∧ w ∉ stopWords)

/-- Model of `wordCounts[w] = (wordCounts[w] || 0) + 1` on an insertion-ordered
dictionary: the first entry for `w` is incremented in place, a new word is
appended at the end (JS object key order for non-index string keys). -/
def bump : List (String × Nat) → String → List (String × Nat)
  | [], w => [(w, 1)]
  | (k, c) :: rest, w =>
    if k = w then (k, c + 1) :: rest else (k, c) :: bump rest w

/-- The body of the inner `words.forEach` of src/server.js:42-46. -/
def bumpQual (m : List (String × Nat)) (w : String) : List (String × Nat) :=
  if qualifies w then bump m w else m

/-- The `wordCounts` dictionary after the two nested `forEach` loops of
src/server.js:38-47, for a given list of token names. -/
def wordCountsList (names : List String) : List (String × Nat) :=
  names.foldl (fun m name => (recordWords name).foldl bumpQual m) []

/-- Insert one entry into a count-descending list, after every entry with a
count `≥` its own: the insertion step of a stable descending sort. -/
def insertDesc (x : String × Nat) : List (String × Nat) → List (String × Nat)
  | [] => [x]
  | y :: ys => if y.2 ≤ x.2 then x :: y :: ys else y :: insertDesc x ys

/-- Model of `Object.entries(wordCounts).sort((a, b) => b[1] - a[1])`
(src/server.js:49): a stable sort by strictly descending count, equal counts
keeping insertion order (ES2019 guarantees `sort` is stable). -/
def sortDesc : List (String × Nat) → List (String × Nat)
  | [] => []
  | x :: xs => insertDesc x (sortDesc xs)

/-- Result shape of `findMetaPattern`. -/
structure ThemeResult where
  meta : String
  count : Nat
  filtered : List CanonicalRecord
deriving DecidableEq, Repr

/-- The needle list occurs at the front of the second list. -/
def leadsWith : List Char → List Char → Bool
  | [], _ => true
  | _ :: _, [] => false
  | a :: as, b :: bs => a = b && leadsWith as bs

/-- JS `String.prototype.includes`: substring containment. -/
def containsSub (needle : List Char) : List Char → Bool
  | [] => needle.isEmpty
  | c :: rest => leadsWith needle (c :: rest) || containsSub needle rest

/-- Model of `hay.includes(needle)` for strings. -/
def strIncludes (hay needle : String) : Bool :=
  containsSub needle.data hay.data

/-- Model of `s.toUpperCase()`, character-wise. -/
def upper (s : String) : String := String.mk (s.data.map Char.toUpper)

/-- The evidence filter of src/server.js:56-59:
`t.name.toUpperCase().includes(topMetaWord) ||
 (t.description && t.description.toUpperCase().includes(topMetaWord))`
(an absent or empty description is falsy and short-circuits to `false`). -/
def evidenceMatch (topMetaWord : String) (t : CanonicalRecord) : Bool :=
  strIncludes (upper t.name) topMetaWord ||
    (match t.description with
     | none => false
     | some d => !(d = "") && strIncludes (upper d) topMetaWord)

/-- Model of `findMetaPattern(tokens)` (src/server.js:28-62). -/
def findMetaPattern (tokens : List CanonicalRecord) : ThemeResult :=
  let sortedWords := sortDesc (wordCountsList (tokens.map (fun t => t.name)))
  match sortedWords with
  | [] => ⟨"None", 0, tokens.take 20⟩
  | (topMetaWord, count) :: _ =>
    ⟨topMetaWord, count, tokens.filter (evidenceMatch topMetaWord)⟩

/-! ## AI ENGINE (src/server.js:65-97) -/

/-- Outcome of one `groq.chat.completions.create` call: success carries
`completion.choices[0]?.message?.content` (possibly absent), failure models a
thrown error (network, auth, malformed response). -/
inductive CollabResult where
  | ok (content : Option String)
  | error
deriving DecidableEq, Repr

/-- JS `x || dflt` for a possibly-undefined string: `undefined` and `""` are
falsy. -/
def jsOrElse (s : Option String) (dflt : String) : String :=
  match s with
  | none => dflt
  | some s => if s = "" then dflt else s

/-- Model of `t.description ? t.description.slice(0,80) : "No Bio"`
(src/server.js:69); an absent or empty description is falsy. -/
def descLine (t : CanonicalRecord) : String :=
  match t.description with
  | none => "No Bio"
  | some d => if d = "" then "No Bio" else String.mk (d.data.take 80)

/-- One line of `tokenText` (src/server.js:68-70). -/
def tokenLine (t : CanonicalRecord) : String :=
  "- " ++ t.name ++ " ($" ++ t.symbol ++ "): " ++ descLine t

/-- Model of `tokens.slice(0, 8).map(...).join(...)` (src/server.js:68-70). -/
def tokenText (tokens : List CanonicalRecord) : String :=
  String.intercalate "\n" ((tokens.take 8).map tokenLine)

/-- The prompt template literal of src/server.js:72-85. -/
def mkPrompt (metaWord : String) (count : Nat) (tokens : List CanonicalRecord) :
    String :=
  "\n    SCAN RESULT: Analyzed 200+ active Solana tokens.\n    DOMINANT META: \""
    ++ metaWord ++ "\" (Found " ++ toString count
    ++ " projects matching this theme).\n    \n    Top Projects in this Meta:\n    "
    ++ tokenText tokens
    ++ "\n\n    TASK:\n    1. Why is the \"" ++ metaWord
    ++ "\" meta trending right now?\n    2. Which of these looks like the \"Market Leader\" vs \"Clone\"?\n    3. Final Verdict: Is this trend early or saturated?\n    \n    Be brutally honest.\n    "

/-- Model of `getAiAnalysis(metaWord, count, tokens)` (src/server.js:65-97), with the
external collaborator passed in as an oracle from prompt to outcome.  The
second component counts how many times the collaborator was invoked. -/
def getAiAnalysis (collab : String → CollabResult) (metaWord : String)
    (count : Nat) (tokens : List CanonicalRecord) : String × Nat :=
  if count < 3 then ("⚠️ Market is scattered. No strong narrative found.", 0)
  else
    match collab (mkPrompt metaWord count tokens) with
    | CollabResult.ok content => (jsOrElse content "No analysis generated.", 1)
    | CollabResult.error => ("⚠️ AI Error. Check API Key.", 1)

/-! ## Resolver: `uniqueTokensMap` (src/server.js:130-147) -/

/-- Model of `Map.prototype.get`. -/
def mapGet : List (String × CanonicalRecord) → String → Option CanonicalRecord
  | [], _ => none
  | (k, v) :: rest, addr => if k = addr then some v else mapGet rest addr

/-- Model of `Map.prototype.set`: overwrite in place, or append a new key (JS `Map`
preserves insertion order). -/
def mapSet : List (String × CanonicalRecord) → String → CanonicalRecord →
    List (String × CanonicalRecord)
  | [], addr, v => [(addr, v)]
  | (k, w) :: rest, addr, v =>
    if k = addr then (addr, v) :: rest else (k, w) :: mapSet rest addr v

/-- JS strict `>` where either operand may be `undefined`: any comparison
involving `undefined` (hence `NaN`) is `false`. -/
def jsGtOpt : Option Int → Option Int → Bool
  | some a, some b => b < a
  | _, _ => false

/-- Model of `uniqueTokensMap.get(addr).liquidity` (src/server.js:133): the stored
record — built at src/server.js:135-143 — has no `liquidity` field, so this
property access yields `undefined`. -/
def storedLiquidity (_r : CanonicalRecord) : Option Int := none

/-- The record built at src/server.js:134-143 from the pair `p` and the
matching raw candidate (`allRaw.find(r => r.tokenAddress === addr)`). -/
def mkCanonical (allRaw : List RawCandidate) (p : Pair) : CanonicalRecord :=
  match allRaw.find? (fun r => r.tokenAddress = p.baseToken.address) with
  | some original =>
    { name := p.baseToken.name, symbol := p.baseToken.symbol,
      address := p.baseToken.address,
      url := p.url, icon := original.icon, header := original.header,
      description := original.description }
  | none =>
    { name := p.baseToken.name, symbol := p.baseToken.symbol,
      address := p.baseToken.address,
      url := p.url, icon := p.info.bind (fun i => i.imageUrl),
      header := p.info.bind (fun i => i.header),
      description := some "No description." }

/-- The body of `resolvedTokens.forEach` (src/server.js:131-145):
`if (!uniqueTokensMap.has(addr) || (p.liquidity?.usd >
uniqueTokensMap.get(addr).liquidity)) uniqueTokensMap.set(addr, {...})`. -/
def insertPair (allRaw : List RawCandidate)
    (m : List (String × CanonicalRecord)) (p : Pair) :
    List (String × CanonicalRecord) :=
  match mapGet m p.baseToken.address with
  | none => mapSet m p.baseToken.address (mkCanonical allRaw p)
  | some stored =>
    if jsGtOpt p.liquidityUsd (storedLiquidity stored) then
      mapSet m p.baseToken.address (mkCanonical allRaw p)
    else m

/-- Model of `Array.from(uniqueTokensMap.values())` after the forEach
(src/server.js:130-147). -/
def resolve (allRaw : List RawCandidate) (resolvedTokens : List Pair) :
    List CanonicalRecord :=
  (resolvedTokens.foldl (insertPair allRaw) []).map (fun e => e.2)

/-! ## THE HUNTING ENDPOINT (src/server.js:100-168) -/

/-- Model of `[...new Set(l)]`: first occurrences, in encounter order. -/
def dedupFirst (seen : List String) : List String → List String
  | [] => []
  | w :: ws => if w ∈ seen then dedupFirst seen ws
               else w :: dedupFirst (w :: seen) ws

/-- The JSON envelope sent by the `/api/hunt` handler: a 200 `success: true`
body (src/server.js:155-162) or a `status(500)` failure body
(src/server.js:166). -/
inductive HuntResponse where
  | ok (total_scanned : Nat) (meta_keyword : String) (meta_count : Nat)
       (ai_analysis : String) (filtered_list : List CanonicalRecord)
  | fail (status : Nat) (error : String)
deriving DecidableEq, Repr

/-- The `success` field of the envelope. -/
def HuntResponse.isSuccess : HuntResponse → Bool
  | HuntResponse.ok _ _ _ _ _ => true
  | HuntResponse.fail _ _ => false

/-- The `/api/hunt` handler (src/server.js:100-168).  The three harvest calls
are `Promise.all`-ed: if any rejects, control reaches the catch block and the
handler answers `status(500) { success: false, error: "Massive Scan Failed." }`.
Otherwise the pipeline runs: chain filter, address dedup, chunking, batched
enrichment with per-batch catch, resolver, pattern engine, AI engine (which
never throws), and the success envelope. -/
def huntHandler (profilesRes boostsRes topRes : Except Unit (List RawCandidate))
    (enrich : List String → Except Unit (List Pair))
    (collab : String → CollabResult) : HuntResponse :=
  match profilesRes, boostsRes, topRes with
  | Except.ok profiles, Except.ok boosts, Except.ok tops =>
    let allRaw := (profiles ++ boosts ++ tops).filter
      (fun t => t.chainId = "solana")
    let uniqueAddresses := dedupFirst [] (allRaw.map (fun t => t.tokenAddress))
    let chunks := chunkArray uniqueAddresses 30
    let resolvedTokens := runBatches enrich chunks
    let finalTokenList := resolve allRaw resolvedTokens
    let r := findMetaPattern finalTokenList
    let ai := getAiAnalysis collab r.meta r.count r.filtered
    HuntResponse.ok finalTokenList.length r.meta r.count ai.1 r.filtered
  | _, _, _ => HuntResponse.fail 500 "Massive Scan Failed."

/-! ## Lemmas about the resolver map -/

theorem mkCanonical_address (allRaw : List RawCandidate) (p : Pair) :
    (mkCanonical allRaw p).address = p.baseToken.address := by
  unfold mkCanonical
  split <;> rfl

theorem mem_keys_mapSet (m : List (String × CanonicalRecord)) (k a : String)
    (v : CanonicalRecord) :
    a ∈ (mapSet m k v).map Prod.fst ↔ a ∈ m.map Prod.fst ∨ a = k := by
  induction m with
  | nil => simp [mapSet]
  | cons e rest ih =>
    obtain ⟨k', w⟩ := e
    by_cases h : k' = k
    · subst h
      simp [mapSet]
      tauto
    · simp [mapSet, h, ih]
      tauto

theorem nodup_keys_mapSet (m : List (String × CanonicalRecord)) (k : String)
    (v : CanonicalRecord) (h : (m.map Prod.fst).Nodup) :
    ((mapSet m k v).map Prod.fst).Nodup := by
  induction m with
  | nil => simp [mapSet]
  | cons e rest ih =>
    obtain ⟨k', w⟩ := e
    simp only [List.map_cons, List.nodup_cons] at h
    by_cases hk : k' = k
    · subst hk
      simpa [mapSet] using h
    · simp only [mapSet, if_neg hk, List.map_cons, List.nodup_cons]
      refine ⟨?_, ih h.2⟩
      rw [mem_keys_mapSet]
      rintro (hmem | rfl)
      · exact h.1 hmem
      · exact hk rfl

theorem mem_mapSet (m : List (String × CanonicalRecord)) (k : String)
    (v : CanonicalRecord) (e : String × CanonicalRecord)
    (he : e ∈ mapSet m k v) : e ∈ m ∨ e = (k, v) := by
  induction m with
  | nil =>
    simp [mapSet] at he
    right
    exact he
  | cons x rest ih =>
    obtain ⟨k', w⟩ := x
    by_cases hk : k' = k
    · simp only [mapSet] at he
      rw [if_pos hk] at he
      rcases List.mem_cons.mp he with he | he
      · right
        exact he
      · left
        exact List.mem_cons_of_mem _ he
    · simp only [mapSet] at he
      rw [if_neg hk] at he
      rcases List.mem_cons.mp he with he | he
      · left
        rw [he]
        exact List.mem_cons_self _ _
      · rcases ih he with h1 | h1
        · left
          exact List.mem_cons_of_mem _ h1
        · right
          exact h1

theorem addr_eq_key_mapSet (m : List (String × CanonicalRecord)) (k : String)
    (v : CanonicalRecord) (hv : v.address = k)
    (h : ∀ e ∈ m, (e.2).address = e.1) :
    ∀ e ∈ mapSet m k v, (e.2).address = e.1 := by
  intro e he
  rcases mem_mapSet m k v e he with h1 | rfl
  · exact h e h1
  · exact hv

/-- The invariant maintained by the `uniqueTokensMap` loop: keys are distinct
and each stored record's `address` field equals its key. -/
def MapInv (m : List (String × CanonicalRecord)) : Prop :=
  (m.map Prod.fst).Nodup ∧ ∀ e ∈ m, (e.2).address = e.1

theorem mapInv_insertPair (allRaw : List RawCandidate)
    (m : List (String × CanonicalRecord)) (p : Pair) (h : MapInv m) :
    MapInv (insertPair allRaw m p) := by
  unfold insertPair
  have hset : MapInv (mapSet m p.baseToken.address (mkCanonical allRaw p)) :=
    ⟨nodup_keys_mapSet m _ _ h.1,
     addr_eq_key_mapSet m _ _ (mkCanonical_address allRaw p) h.2⟩
  split
  · exact hset
  · split
    · exact hset
    · exact h

theorem mapInv_foldl (allRaw : List RawCandidate) (pairs : List Pair)
    (m : List (String × CanonicalRecord)) (h : MapInv m) :
    MapInv (pairs.foldl (insertPair allRaw) m) := by
  induction pairs generalizing m with
  | nil => exact h
  | cons p rest ih => exact ih _ (mapInv_insertPair allRaw m p h)

/-! ## Claim theorems C1-C3 -/

/-- A competing observation with the smaller known liquidity (5). -/
def lowLiqPair : Pair := ⟨⟨"TOKA", "A", "addr1"⟩, "u1", some 5, none⟩

/-- A competing observation for the same address with the strictly greater
known liquidity (100). -/
def highLiqPair : Pair := ⟨⟨"TOKB", "B", "addr1"⟩, "u2", some 100, none⟩

/-- C1: evaluation of the resolver at the failing input.  `lowLiqPair` and
`highLiqPair` compete for address `"addr1"` with known liquidities 5 and 100;
the claim says the canonical entry's name must come from the record with the
strictly greater liquidity (`"TOKB"`), but the code keeps the
first-encountered record and the canonical name is `"TOKA"`: the replacement
test `p.liquidity?.usd > uniqueTokensMap.get(addr).liquidity` reads a
`liquidity` field the stored record does not have, so it is always false. -/
theorem resolver_keeps_first_not_highest_liquidity :
    lowLiqPair.baseToken.address = highLiqPair.baseToken.address ∧
    lowLiqPair.liquidityUsd = some 5 ∧ highLiqPair.liquidityUsd = some 100 ∧
    (resolve [] [lowLiqPair, highLiqPair]).map (fun r => r.name) = ["TOKA"] ∧
    ("TOKA" : String) ≠ "TOKB" := by
  decide

/-- C2: evaluation of the resolver at the failing input.  The same multiset
of enriched records presented in the two possible orders yields two different
canonical sets (names `["TOKA"]` vs `["TOKB"]`), so the result depends on
iteration order, contrary to the determinism requirement. -/
theorem resolver_result_depends_on_order :
    resolve [] [lowLiqPair, highLiqPair] ≠ resolve [] [highLiqPair, lowLiqPair] := by
  decide

/-- C3: for every input to the resolver, each address appears at most once in
the canonical output: the list of `address` fields of the output has no
duplicates. -/
theorem resolve_addresses_nodup (allRaw : List RawCandidate)
    (pairs : List Pair) :
    ((resolve allRaw pairs).map (fun r => r.address)).Nodup := by
  have h := mapInv_foldl allRaw pairs [] ⟨List.nodup_nil, by simp⟩
  unfold resolve
  rw [List.map_map]
  have : (pairs.foldl (insertPair allRaw) []).map
      ((fun r => r.address) ∘ fun e => e.2) =
      (pairs.foldl (insertPair allRaw) []).map Prod.fst :=
    List.map_congr_left (fun e he => h.2 e he)
  rw [this]
  exact h.1

/-! ## Lemmas about the word-count dictionary -/

/-- All qualifying words of all records, in traversal order (outer loop over
records, inner loop over the words of one name). -/
def flatQualWords (names : List String) : List String :=
  names.flatMap (fun name => (recordWords name).filter qualifies)

/-- Number of occurrences of `w` in a word list. -/
def occCount (w : String) : List String → Nat
  | [] => 0
  | v :: vs => (if v = w then 1 else 0) + occCount w vs

/-- The count stored for `w` in the dictionary (0 when absent). -/
def lookupCount : List (String × Nat) → String → Nat
  | [], _ => 0
  | (k, c) :: rest, w => if k = w then c else lookupCount rest w

theorem foldl_bumpQual_eq_filter (ws : List String) (m : List (String × Nat)) :
    ws.foldl bumpQual m = (ws.filter qualifies).foldl bump m := by
  induction ws generalizing m with
  | nil => rfl
  | cons w ws ih =>
    by_cases h : qualifies w
    · simp only [List.foldl_cons, List.filter_cons, if_pos h, bumpQual, ih]
    · simp only [List.foldl_cons, List.filter_cons, if_neg h, bumpQual, ih]

theorem wordCountsList_eq_flat_aux (names : List String)
    (m : List (String × Nat)) :
    names.foldl (fun m name => (recordWords name).foldl bumpQual m) m =
      (flatQualWords names).foldl bump m := by
  induction names generalizing m with
  | nil => rfl
  | cons n ns ih =>
    rw [List.foldl_cons, ih]
    simp only [flatQualWords, List.flatMap_cons, List.foldl_append]
    rw [foldl_bumpQual_eq_filter]

theorem wordCountsList_eq_flat (names : List String) :
    wordCountsList names = (flatQualWords names).foldl bump [] :=
  wordCountsList_eq_flat_aux names []

theorem lookupCount_bump_self (m : List (String × Nat)) (w : String) :
    lookupCount (bump m w) w = lookupCount m w + 1 := by
  induction m with
  | nil => simp [bump, lookupCount]
  | cons e rest ih =>
    obtain ⟨k, c⟩ := e
    by_cases h : k = w
    · subst h
      simp [bump, lookupCount]
    · simp [bump, lookupCount, h, ih]

theorem lookupCount_bump_other (m : List (String × Nat)) (w v : String)
    (hvw : v ≠ w) : lookupCount (bump m w) v = lookupCount m v := by
  have hwv : ¬ w = v := fun hh => hvw hh.symm
  induction m with
  | nil => simp [bump, lookupCount, hwv]
  | cons e rest ih =>
    obtain ⟨k, c⟩ := e
    by_cases h : k = w
    · subst h
      simp [bump, lookupCount, hwv]
    · by_cases hkv : k = v
      · simp [bump, lookupCount, h, hkv, hvw]
      · simp [bump, lookupCount, h, hkv, ih]

theorem lookupCount_foldl_bump (ws : List String) (m : List (String × Nat))
    (w : String) :
    lookupCount (ws.foldl bump m) w = lookupCount m w + occCount w ws := by
  induction ws generalizing m with
  | nil => simp [occCount]
  | cons v vs ih =>
    rw [List.foldl_cons, ih]
    by_cases h : v = w
    · subst h
      rw [lookupCount_bump_self]
      simp [occCount]
      omega
    · rw [lookupCount_bump_other m v w fun hh => h hh.symm]
      simp [occCount, h]

theorem keys_bump (m : List (String × Nat)) (w : String) :
    (bump m w).map Prod.fst =
      if w ∈ m.map Prod.fst then m.map Prod.fst
      else m.map Prod.fst ++ [w] := by
  induction m with
  | nil => simp [bump]
  | cons e rest ih =>
    obtain ⟨k, c⟩ := e
    by_cases h : k = w
    · simp [bump, h]
    · simp only [bump, if_neg h, List.map_cons, ih, List.mem_cons]
      by_cases hw : w ∈ rest.map Prod.fst
      · rw [if_pos hw, if_pos (Or.inr hw)]
      · rw [if_neg hw, if_neg ?_]
        · rfl
        · rintro (hh | hh)
          · exact h hh.symm
          · exact hw hh

theorem nodup_keys_bump (m : List (String × Nat)) (w : String)
    (h : (m.map Prod.fst).Nodup) : ((bump m w).map Prod.fst).Nodup := by
  rw [keys_bump]
  by_cases hw : w ∈ m.map Prod.fst
  · rw [if_pos hw]
    exact h
  · rw [if_neg hw]
    simp [List.nodup_append, h, hw]

theorem nodup_keys_foldl_bump (ws : List String) (m : List (String × Nat))
    (h : (m.map Prod.fst).Nodup) :
    ((ws.foldl bump m).map Prod.fst).Nodup := by
  induction ws generalizing m with
  | nil => exact h
  | cons v vs ih => exact ih _ (nodup_keys_bump m v h)

theorem lookupCount_of_mem (m : List (String × Nat))
    (h : (m.map Prod.fst).Nodup) (k : String) (c : Nat) (hm : (k, c) ∈ m) :
    lookupCount m k = c := by
  induction m with
  | nil => cases hm
  | cons e rest ih =>
    obtain ⟨k', c'⟩ := e
    simp only [List.map_cons, List.nodup_cons] at h
    rcases List.mem_cons.mp hm with he | he
    · injection he with e1 e2
      simp [lookupCount, e1, e2]
    · have hk : k' ≠ k := by
        intro hh
        subst hh
        exact h.1 (List.mem_map.mpr ⟨(k', c), he, rfl⟩)
      simp only [lookupCount, if_neg hk]
      exact ih h.2 he

theorem mem_insertDesc (x y : String × Nat) (l : List (String × Nat)) :
    y ∈ insertDesc x l ↔ y = x ∨ y ∈ l := by
  induction l with
  | nil => simp [insertDesc]
  | cons z zs ih =>
    simp only [insertDesc]
    by_cases h : z.2 ≤ x.2
    · rw [if_pos h]
      simp
    · rw [if_neg h]
      simp only [List.mem_cons, ih]
      tauto

theorem mem_sortDesc (l : List (String × Nat)) (y : String × Nat) :
    y ∈ sortDesc l ↔ y ∈ l := by
  induction l with
  | nil => simp [sortDesc]
  | cons z zs ih =>
    simp only [sortDesc, mem_insertDesc, ih, List.mem_cons]

theorem length_insertDesc (x : String × Nat) (l : List (String × Nat)) :
    (insertDesc x l).length = l.length + 1 := by
  induction l with
  | nil => rfl
  | cons z zs ih =>
    simp only [insertDesc]
    by_cases h : z.2 ≤ x.2
    · rw [if_pos h]
      rfl
    · rw [if_neg h]
      simp [ih]

theorem length_sortDesc (l : List (String × Nat)) :
    (sortDesc l).length = l.length := by
  induction l with
  | nil => rfl
  | cons z zs ih => simp [sortDesc, length_insertDesc, ih]

/-! ## Claim theorems C4-C5 -/

/-- A record whose name contains the same qualifying word twice. -/
def dogeDoge : CanonicalRecord := ⟨"DOGE DOGE", "D", "a1", "u", none, none, none⟩

/-- C4 counterexample: on the single record `"DOGE DOGE"`, the detected theme
is `"DOGE"` with `supportCount = 2`, but only 1 record's tokenized name
contains the theme word — the code counts word occurrences (twice within one
name counts twice), not supporting records. -/
theorem support_count_counterexample :
    (findMetaPattern [dogeDoge]).meta = "DOGE" ∧
    (findMetaPattern [dogeDoge]).count = 2 ∧
    (([dogeDoge]).filter (fun t =>
      decide ((findMetaPattern [dogeDoge]).meta ∈
        (recordWords t.name).filter qualifies))).length = 1 ∧
    (2 : Nat) ≠ 1 := by
  decide

/-- C4 as amended: when pattern detection finds a theme, the returned
`supportCount` equals the total number of occurrences of the theme word among
the tokenized (normalized, filtered) words of all records, counted with
multiplicity. -/
theorem support_count_is_occurrences (tokens : List CanonicalRecord)
    (h : wordCountsList (tokens.map (fun t => t.name)) ≠ []) :
    (findMetaPattern tokens).count =
      occCount (findMetaPattern tokens).meta
        (flatQualWords (tokens.map (fun t => t.name))) := by
  have hnodup : ((wordCountsList (tokens.map (fun t => t.name))).map
      Prod.fst).Nodup := by
    rw [wordCountsList_eq_flat]
    exact nodup_keys_foldl_bump _ [] List.nodup_nil
  have hsne : sortDesc (wordCountsList (tokens.map (fun t => t.name))) ≠ [] := by
    intro hs
    apply h
    have := length_sortDesc (wordCountsList (tokens.map (fun t => t.name)))
    rw [hs] at this
    exact List.length_eq_zero.mp this.symm
  rcases hs : sortDesc (wordCountsList (tokens.map (fun t => t.name))) with
    _ | ⟨⟨w, c⟩, rest⟩
  · exact absurd hs hsne
  · have hmem : (w, c) ∈ wordCountsList (tokens.map (fun t => t.name)) := by
      rw [← mem_sortDesc]
      rw [hs]
      exact List.mem_cons_self _ _
    have hcount : lookupCount (wordCountsList (tokens.map (fun t => t.name))) w
        = c := lookupCount_of_mem _ hnodup w c hmem
    have hocc : lookupCount (wordCountsList (tokens.map (fun t => t.name))) w
        = occCount w (flatQualWords (tokens.map (fun t => t.name))) := by
      rw [wordCountsList_eq_flat, lookupCount_foldl_bump]
      simp [lookupCount]
    have hmeta : findMetaPattern tokens = ⟨w, c, (tokens.filter
        (evidenceMatch w))⟩ := by
      unfold findMetaPattern
      rw [hs]
    rw [hmeta]
    rw [← hocc, hcount]

/-- C5: if no word of any record's name survives normalization, the length
filter and the stop-word filter, `findMetaPattern` returns the `"None"`
sentinel with count 0 and the first 20 records in input order. -/
theorem no_surviving_word_gives_none (tokens : List CanonicalRecord)
    (h : flatQualWords (tokens.map (fun t => t.name)) = []) :
    findMetaPattern tokens = ⟨"None", 0, tokens.take 20⟩ := by
  have h0 : wordCountsList (tokens.map (fun t => t.name)) = [] := by
    rw [wordCountsList_eq_flat, h]
    rfl
  unfold findMetaPattern
  rw [h0]
  rfl

/-- C4 witness: the theorem applied to the concrete record list
`[dogeDoge]`, whose word dictionary is non-empty. -/
theorem support_count_is_occurrences_witness :
    wordCountsList ([dogeDoge].map (fun t => t.name)) ≠ [] ∧
    (findMetaPattern [dogeDoge]).count =
      occCount (findMetaPattern [dogeDoge]).meta
        (flatQualWords ([dogeDoge].map (fun t => t.name))) :=
  ⟨by decide, support_count_is_occurrences [dogeDoge] (by decide)⟩

/-- A record whose name consists only of stop words. -/
def solanaMoon : CanonicalRecord :=
  ⟨"SOLANA MOON", "SM", "a9", "u", none, none, none⟩

/-- C5 witness: the theorem applied to the concrete record list
`[solanaMoon]`, where every word is a stop word. -/
theorem no_surviving_word_gives_none_witness :
    flatQualWords ([solanaMoon].map (fun t => t.name)) = [] ∧
    findMetaPattern [solanaMoon] = ⟨"None", 0, [solanaMoon].take 20⟩ :=
  ⟨by decide, no_surviving_word_gives_none [solanaMoon] (by decide)⟩

/-! ## Claim theorems C6, C7, C9 -/

/-- C6: with support count 0, 1 or 2 the narrative requester returns the
fixed insufficient-evidence placeholder and invokes the external collaborator
zero times, whatever the collaborator would answer. -/
theorem low_support_skips_collaborator (collab : String → CollabResult)
    (metaWord : String) (count : Nat) (tokens : List CanonicalRecord)
    (h : count < 3) :
    getAiAnalysis collab metaWord count tokens =
      ("⚠️ Market is scattered. No strong narrative found.", 0) := by
  unfold getAiAnalysis
  rw [if_pos h]

/-- C6 witness: the theorem applied at support count 2 with an
always-failing collaborator. -/
theorem low_support_skips_collaborator_witness :
    (2 : Nat) < 3 ∧
    getAiAnalysis (fun _ => CollabResult.error) "DOGE" 2 [] =
      ("⚠️ Market is scattered. No strong narrative found.", 0) :=
  ⟨by decide,
   low_support_skips_collaborator (fun _ => CollabResult.error) "DOGE" 2 []
     (by decide)⟩

/-- C7: with support count at least 3, if the external collaborator call
fails then the narrative requester returns the fixed generation-failed
placeholder (after exactly one collaborator invocation: the failure does not
escape the requester), and an overall request whose three harvest calls
succeeded still answers with the success envelope. -/
theorem collaborator_failure_gives_placeholder_and_success
    (collab : String → CollabResult) (metaWord : String) (count : Nat)
    (tokens : List CanonicalRecord) (h3 : 3 ≤ count)
    (hf : collab (mkPrompt metaWord count tokens) = CollabResult.error) :
    getAiAnalysis collab metaWord count tokens =
      ("⚠️ AI Error. Check API Key.", 1) ∧
    ∀ (profiles boosts tops : List RawCandidate)
      (enrich : List String → Except Unit (List Pair)),
      (huntHandler (Except.ok profiles) (Except.ok boosts) (Except.ok tops)
        enrich collab).isSuccess = true := by
  constructor
  · unfold getAiAnalysis
    rw [if_neg (by omega), hf]
  · intro profiles boosts tops enrich
    rfl

/-- C7 witness: the theorem applied at support count 3 with an
always-failing collaborator and a concrete request. -/
theorem collaborator_failure_witness :
    (3 : Nat) ≤ 3 ∧
    (fun _ => CollabResult.error : String → CollabResult)
      (mkPrompt "DOGE" 3 []) = CollabResult.error ∧
    getAiAnalysis (fun _ => CollabResult.error) "DOGE" 3 [] =
      ("⚠️ AI Error. Check API Key.", 1) ∧
    (huntHandler (Except.ok []) (Except.ok []) (Except.ok [])
      (fun _ => Except.ok []) (fun _ => CollabResult.error)).isSuccess = true := by
  refine ⟨by decide, rfl, ?_, ?_⟩
  · exact (collaborator_failure_gives_placeholder_and_success
      (fun _ => CollabResult.error) "DOGE" 3 [] (by decide) rfl).1
  · exact (collaborator_failure_gives_placeholder_and_success
      (fun _ => CollabResult.error) "DOGE" 3 [] (by decide) rfl).2 [] [] []
      (fun _ => Except.ok [])

/-- C9: if any of the three harvest calls rejects, the whole request fails
with the single generic failure envelope and server-error status 500, for
every enrichment oracle and collaborator — no partial harvest result is
used. -/
theorem harvest_failure_fails_request
    (h1 h2 h3 : Except Unit (List RawCandidate))
    (enrich : List String → Except Unit (List Pair))
    (collab : String → CollabResult)
    (hfail : h1 = Except.error () ∨ h2 = Except.error () ∨
      h3 = Except.error ()) :
    huntHandler h1 h2 h3 enrich collab =
      HuntResponse.fail 500 "Massive Scan Failed." := by
  rcases hfail with hf | hf | hf
  · rw [hf]
    cases h2 <;> cases h3 <;> rfl
  · rw [hf]
    cases h1 <;> cases h3 <;> rfl
  · rw [hf]
    cases h1 <;> cases h2 <;> rfl

/-- C9 witness: the theorem applied with the first harvest call failing and
the other two succeeding. -/
theorem harvest_failure_fails_request_witness :
    ((Except.error () : Except Unit (List RawCandidate)) = Except.error () ∨
      (Except.ok [] : Except Unit (List RawCandidate)) = Except.error () ∨
      (Except.ok [] : Except Unit (List RawCandidate)) = Except.error ()) ∧
    huntHandler (Except.error ()) (Except.ok []) (Except.ok [])
      (fun _ => Except.ok []) (fun _ => CollabResult.error) =
      HuntResponse.fail 500 "Massive Scan Failed." :=
  ⟨Or.inl rfl,
   harvest_failure_fails_request (Except.error ()) (Except.ok [])
     (Except.ok []) (fun _ => Except.ok []) (fun _ => CollabResult.error)
     (Or.inl rfl)⟩

/-! ## Claim theorem C8 -/

/-- C8: an address set of size 65 with the batch limit 30 is partitioned into
exactly 3 contiguous batches of sizes 30, 30 and 5 (their concatenation is
the input), and whenever exactly one of the three batch lookups fails, that
batch contributes an empty list and the merged enrichment result is exactly
the concatenation of the two successful batches' results. -/
theorem chunk65_single_batch_failure (addrs : List String)
    (h : addrs.length = 65) :
    (chunkArray addrs 30).map List.length = [30, 30, 5] ∧
    (chunkArray addrs 30).flatten = addrs ∧
    ∀ (c0 c1 c2 : List String)
      (enrich : List String → Except Unit (List Pair)) (r r' : List Pair),
      chunkArray addrs 30 = [c0, c1, c2] →
      ((enrich c0 = Except.error () → enrich c1 = Except.ok r →
          enrich c2 = Except.ok r' →
          runBatches enrich (chunkArray addrs 30) = r ++ r') ∧
       (enrich c1 = Except.error () → enrich c0 = Except.ok r →
          enrich c2 = Except.ok r' →
          runBatches enrich (chunkArray addrs 30) = r ++ r') ∧
       (enrich c2 = Except.error () → enrich c0 = Except.ok r →
          enrich c1 = Except.ok r' →
          runBatches enrich (chunkArray addrs 30) = r ++ r')) := by
  have hc : chunkArray addrs 30 =
      [addrs.take 30, (addrs.drop 30).take 30, (addrs.drop 60).take 30] := by
    unfold chunkArray
    rw [h]
    rfl
  have h60 : (addrs.drop 60).take 30 = addrs.drop 60 :=
    List.take_of_length_le (by rw [List.length_drop, h]; omega)
  refine ⟨?_, ?_, ?_⟩
  · rw [hc]
    simp only [List.map_cons, List.map_nil, List.length_take,
      List.length_drop, h]
    rfl
  · rw [hc]
    simp only [List.flatten, h60]
    rw [List.append_nil, ← List.drop_drop 30 30 addrs,
      List.take_append_drop 30 (addrs.drop 30), List.take_append_drop 30 addrs]
  · intro c0 c1 c2 enrich r r' hch
    rw [hc] at hch
    injection hch with e0 hch
    injection hch with e1 hch
    injection hch with e2 _
    subst e0
    subst e1
    subst e2
    refine ⟨?_, ?_, ?_⟩ <;> intro hf hok1 hok2 <;> rw [hc] <;>
      simp [runBatches, hf, hok1, hok2]

/-- The 65 distinct addresses used to exercise C8. -/
def addrs65 : List String := (List.range 65).map (fun n => toString n)

/-- The enrichment oracle used in the C8 witness: it fails exactly on the
middle batch (the one whose first element is `"30"`) and returns an empty
pair list elsewhere. -/
def enrichW : List String → Except Unit (List Pair) :=
  fun c => if c.headD "" = "30" then Except.error () else Except.ok []

/-- C8 witness: the theorem applied to the 65 concrete addresses, with a
lookup that fails exactly on the middle batch. -/
theorem chunk65_single_batch_failure_witness :
    addrs65.length = 65 ∧
    (chunkArray addrs65 30).map List.length = [30, 30, 5] ∧
    (chunkArray addrs65 30).flatten = addrs65 ∧
    runBatches enrichW (chunkArray addrs65 30) = ([] : List Pair) ++ [] := by
  have h := chunk65_single_batch_failure addrs65 (by decide)
  refine ⟨by decide, h.1, h.2.1, ?_⟩
  exact (h.2.2 (chunkArray addrs65 30).headI
      ((chunkArray addrs65 30).tail.headI)
      ((chunkArray addrs65 30).tail.tail.headI) enrichW [] []
      (by decide)).2.1 rfl rfl rfl

/-! ## Lemmas for C10: head of the stable sort is the first maximal entry -/

/-- Maximum of a list of counts (0 for the empty list). -/
def listMax : List Nat → Nat
  | [] => 0
  | n :: ns => max n (listMax ns)

/-- The maximal number of occurrences any word of `ws` has in `ws`. -/
def maxOcc (ws : List String) : Nat :=
  listMax (ws.map (fun w => occCount w ws))

/-- The first entry of the list holding the (weakly) greatest count. -/
def firstMax : List (String × Nat) → Option (String × Nat)
  | [] => none
  | x :: xs =>
    match firstMax xs with
    | none => some x
    | some m => if m.2 ≤ x.2 then some x else some m

theorem head_sortDesc (l : List (String × Nat)) :
    (sortDesc l).head? = firstMax l := by
  induction l with
  | nil => rfl
  | cons x xs ih =>
    rcases hs : sortDesc xs with _ | ⟨y, ys⟩
    · have hxs : xs = [] := by
        have := length_sortDesc xs
        rw [hs] at this
        exact List.length_eq_zero.mp this.symm
      subst hxs
      rfl
    · rw [hs] at ih
      simp only [sortDesc, hs, firstMax, ← ih]
      simp only [insertDesc, List.head?]
      by_cases h : y.2 ≤ x.2
      · rw [if_pos h, if_pos h]
      · rw [if_neg h, if_neg h]

theorem firstMax_spec (l : List (String × Nat)) (hne : l ≠ []) :
    ∃ m, firstMax l = some m ∧ m.2 = listMax (l.map Prod.snd) ∧
      (l.filter (fun e => decide (e.2 = listMax (l.map Prod.snd)))).head? =
        some m := by
  induction l with
  | nil => exact absurd rfl hne
  | cons x xs ih =>
    by_cases hxe : xs = []
    · subst hxe
      refine ⟨x, rfl, ?_, ?_⟩
      · simp [listMax]
      · simp [listMax, List.filter_cons]
    · obtain ⟨m, hm, hm2, hmh⟩ := ih hxe
      by_cases h : listMax (xs.map Prod.snd) ≤ x.2
      · have hM : listMax ((x :: xs).map Prod.snd) = x.2 := by
          simp only [List.map_cons, listMax]
          exact Nat.max_eq_left h
        refine ⟨x, ?_, ?_, ?_⟩
        · simp only [firstMax, hm]
          rw [if_pos (hm2 ▸ h)]
        · rw [hM]
        · rw [hM]
          rw [List.filter_cons]
          rw [if_pos (by simp)]
          rfl
      · have hlt : x.2 < listMax (xs.map Prod.snd) := Nat.lt_of_not_le h
        have hM : listMax ((x :: xs).map Prod.snd) =
            listMax (xs.map Prod.snd) := by
          simp only [List.map_cons, listMax]
          exact Nat.max_eq_right (Nat.le_of_lt hlt)
        refine ⟨m, ?_, ?_, ?_⟩
        · simp only [firstMax, hm]
          rw [if_neg (by omega)]
        · rw [hM]
          exact hm2
        · rw [hM]
          rw [List.filter_cons]
          rw [if_neg (by simp; omega)]
          exact hmh

theorem mem_dedupFirst (ws : List String) (seen : List String) (x : String) :
    x ∈ dedupFirst seen ws ↔ x ∈ ws ∧ x ∉ seen := by
  induction ws generalizing seen with
  | nil => simp [dedupFirst]
  | cons w ws ih =>
    simp only [dedupFirst]
    by_cases hw : w ∈ seen
    · rw [if_pos hw, ih]
      simp only [List.mem_cons]
      constructor
      · rintro ⟨h1, h2⟩
        exact ⟨Or.inr h1, h2⟩
      · rintro ⟨h1 | h1, h2⟩
        · subst h1
          exact absurd hw h2
        · exact ⟨h1, h2⟩
    · rw [if_neg hw]
      simp only [List.mem_cons, ih, List.mem_cons]
      constructor
      · rintro (rfl | ⟨h1, h2⟩)
        · exact ⟨Or.inl rfl, hw⟩
        · exact ⟨Or.inr h1, fun hh => h2 (Or.inr hh)⟩
      · rintro ⟨h1 | h1, h2⟩
        · exact Or.inl h1
        · by_cases hx : x = w
          · exact Or.inl hx
          · refine Or.inr ⟨h1, ?_⟩
            rintro (hh | hh)
            · exact hx hh
            · exact h2 hh

theorem dedupFirst_congr (s s' : List String)
    (h : ∀ x, x ∈ s ↔ x ∈ s') (ws : List String) :
    dedupFirst s ws = dedupFirst s' ws := by
  induction ws generalizing s s' with
  | nil => rfl
  | cons w ws ih =>
    simp only [dedupFirst]
    by_cases hw : w ∈ s
    · rw [if_pos hw, if_pos ((h w).mp hw)]
      exact ih s s' h
    · rw [if_neg hw, if_neg (fun hh => hw ((h w).mpr hh))]
      rw [ih (w :: s) (w :: s') (by intro x; simp [h x])]

theorem keys_foldl_bump (ws : List String) (m : List (String × Nat)) :
    (ws.foldl bump m).map Prod.fst =
      m.map Prod.fst ++ dedupFirst (m.map Prod.fst) ws := by
  induction ws generalizing m with
  | nil => simp [dedupFirst]
  | cons w ws ih =>
    rw [List.foldl_cons, ih, keys_bump]
    by_cases hw : w ∈ m.map Prod.fst
    · rw [if_pos hw]
      simp [dedupFirst, hw]
    · rw [if_neg hw]
      have hd : dedupFirst (m.map Prod.fst ++ [w]) ws =
          dedupFirst (w :: m.map Prod.fst) ws :=
        dedupFirst_congr _ _ (by intro x; simp; tauto) ws
      rw [hd]
      simp [dedupFirst, hw, List.append_assoc]

theorem head_filter_dedupFirst (p : String → Bool) (ws seen : List String)
    (hs : ∀ x ∈ seen, p x = false) :
    ((dedupFirst seen ws).filter p).head? = (ws.filter p).head? := by
  induction ws generalizing seen with
  | nil => rfl
  | cons w ws ih =>
    simp only [dedupFirst]
    by_cases hw : w ∈ seen
    · rw [if_pos hw, ih seen hs, List.filter_cons, if_neg (by rw [hs w hw]; simp)]
    · rw [if_neg hw]
      by_cases hp : p w
      · rw [List.filter_cons, List.filter_cons, if_pos hp, if_pos hp]
        rfl
      · rw [List.filter_cons, List.filter_cons,
          if_neg (by simp [hp]), if_neg (by simp [hp])]
        exact ih (w :: seen) (by
          intro x hx
          rcases List.mem_cons.mp hx with rfl | hx
          · simp at hp
            simp [hp]
          · exact hs x hx)

theorem entry_count_correct (names : List String) (e : String × Nat)
    (he : e ∈ wordCountsList names) :
    e.2 = occCount e.1 (flatQualWords names) := by
  have hnodup : ((wordCountsList names).map Prod.fst).Nodup := by
    rw [wordCountsList_eq_flat]
    exact nodup_keys_foldl_bump _ [] List.nodup_nil
  have h1 : lookupCount (wordCountsList names) e.1 = e.2 :=
    lookupCount_of_mem _ hnodup e.1 e.2 (by
      obtain ⟨a, b⟩ := e
      exact he)
  rw [← h1, wordCountsList_eq_flat, lookupCount_foldl_bump]
  simp [lookupCount]

theorem le_listMax (l : List Nat) (x : Nat) (hx : x ∈ l) : x ≤ listMax l := by
  induction l with
  | nil => cases hx
  | cons n ns ih =>
    rcases List.mem_cons.mp hx with rfl | hx
    · simp [listMax]
    · simp only [listMax]
      exact Nat.le_trans (ih hx) (Nat.le_max_right _ _)

theorem listMax_le (l : List Nat) (b : Nat) (h : ∀ x ∈ l, x ≤ b) :
    listMax l ≤ b := by
  induction l with
  | nil => simp [listMax]
  | cons n ns ih =>
    simp only [listMax, Nat.max_le]
    exact ⟨h n (List.mem_cons_self _ _),
      ih (fun x hx => h x (List.mem_cons_of_mem _ hx))⟩

theorem listMax_mem_congr (l1 l2 : List Nat)
    (h12 : ∀ x ∈ l1, x ∈ l2) (h21 : ∀ x ∈ l2, x ∈ l1) :
    listMax l1 = listMax l2 :=
  Nat.le_antisymm
    (listMax_le l1 _ (fun x hx => le_listMax l2 x (h12 x hx)))
    (listMax_le l2 _ (fun x hx => le_listMax l1 x (h21 x hx)))

theorem filter_keys (ws : List (String × Nat)) (qws : List String) (M : Nat)
    (hc : ∀ e ∈ ws, e.2 = occCount e.1 qws) :
    (ws.filter (fun e => decide (e.2 = M))).map Prod.fst =
      (ws.map Prod.fst).filter (fun k => decide (occCount k qws = M)) := by
  induction ws with
  | nil => rfl
  | cons e rest ih =>
    have he : e.2 = occCount e.1 qws := hc e (List.mem_cons_self _ _)
    have ihr := ih (fun x hx => hc x (List.mem_cons_of_mem _ hx))
    rw [List.filter_cons, List.map_cons, List.filter_cons]
    by_cases h : e.2 = M
    · rw [if_pos (by simp [h]), if_pos (by simp [← he, h]), List.map_cons, ihr]
    · rw [if_neg (by simp [h]), if_neg (by simp [← he, h]), ihr]

/-! ## Claim theorem C10 -/

/-- C10: when two or more qualifying words share the maximal occurrence
count, the returned theme is the first word of the qualifying-word traversal
(records in input order, words in name order) whose count is maximal — i.e.
the head of the traversal filtered to maximal-count words.  Since every
occurrence of a maximal-count word is itself a maximal-count position, this
head is exactly the maximal-count word whose first qualifying occurrence is
earliest in the record sequence: the stable sort over the insertion-ordered
word dictionary breaks ties by first-encountered order. -/
theorem tie_break_first_encountered (tokens : List CanonicalRecord)
    (htie : ∃ v w : String,
      v ∈ flatQualWords (tokens.map (fun t => t.name)) ∧
      w ∈ flatQualWords (tokens.map (fun t => t.name)) ∧ v ≠ w ∧
      occCount v (flatQualWords (tokens.map (fun t => t.name))) =
        maxOcc (flatQualWords (tokens.map (fun t => t.name))) ∧
      occCount w (flatQualWords (tokens.map (fun t => t.name))) =
        maxOcc (flatQualWords (tokens.map (fun t => t.name)))) :
    some (findMetaPattern tokens).meta =
      ((flatQualWords (tokens.map (fun t => t.name))).filter
        (fun u => decide
          (occCount u (flatQualWords (tokens.map (fun t => t.name))) =
            maxOcc (flatQualWords (tokens.map (fun t => t.name)))))).head? := by
  obtain ⟨v, w, hv, hw, hvw, hcv, hcw⟩ := htie
  set qws := flatQualWords (tokens.map (fun t => t.name)) with hqws
  set ws := wordCountsList (tokens.map (fun t => t.name)) with hws
  have hkeys : ws.map Prod.fst = dedupFirst [] qws := by
    rw [hws, wordCountsList_eq_flat]
    simpa using keys_foldl_bump qws []
  have hwsne : ws ≠ [] := by
    intro h0
    have hvd : v ∈ dedupFirst [] qws :=
      (mem_dedupFirst _ _ _).mpr ⟨hv, by simp⟩
    rw [← hkeys, h0] at hvd
    simp at hvd
  have hcounts : ∀ e ∈ ws, e.2 = occCount e.1 qws := by
    intro e he
    exact entry_count_correct _ e he
  have hsnd : ws.map Prod.snd = (ws.map Prod.fst).map
      (fun k => occCount k qws) := by
    rw [List.map_map]
    exact List.map_congr_left (fun e he => hcounts e he)
  have hmemq : ∀ a, a ∈ dedupFirst [] qws ↔ a ∈ qws := by
    intro a
    rw [mem_dedupFirst]
    simp
  have hM : listMax (ws.map Prod.snd) = maxOcc qws := by
    rw [hsnd, hkeys, maxOcc]
    apply listMax_mem_congr
    · intro x hx
      obtain ⟨a, ha, rfl⟩ := List.mem_map.mp hx
      exact List.mem_map.mpr ⟨a, (hmemq a).mp ha, rfl⟩
    · intro x hx
      obtain ⟨a, ha, rfl⟩ := List.mem_map.mp hx
      exact List.mem_map.mpr ⟨a, (hmemq a).mpr ha, rfl⟩
  obtain ⟨m, hm, hm2, hmh⟩ := firstMax_spec ws hwsne
  have hhead : (sortDesc ws).head? = some m := by
    rw [head_sortDesc]
    exact hm
  rcases hs : sortDesc ws with _ | ⟨⟨a, c⟩, rest⟩
  · rw [hs] at hhead
    cases hhead
  · rw [hs] at hhead
    have hac : (a, c) = m := by
      injection hhead
    have hmeta : (findMetaPattern tokens).meta = a := by
      unfold findMetaPattern
      rw [← hws, hs]
    rw [hM] at hmh
    have h1 : ((ws.filter (fun e => decide (e.2 = maxOcc qws))).map
        Prod.fst).head? = some m.1 := by
      rw [List.head?_map, hmh]
      rfl
    rw [filter_keys ws qws (maxOcc qws) hcounts, hkeys,
      head_filter_dedupFirst _ _ _ (by intro x hx; cases hx)] at h1
    rw [hmeta, h1, ← hac]

/-- First record of the C10 witness: its name contributes the qualifying
words CAT then DOG. -/
def catDog : CanonicalRecord := ⟨"CAT DOG", "C", "w1", "u", none, none, none⟩

/-- Second record of the C10 witness: its name contributes DOG then CAT. -/
def dogCat : CanonicalRecord := ⟨"DOG CAT", "D", "w2", "u", none, none, none⟩

/-- C10 witness: on `[catDog, dogCat]` the words CAT and DOG tie at the
maximal count 2, and the theorem applies; the detected theme is the head of
the qualifying traversal filtered to maximal-count words (namely CAT, whose
first occurrence is earliest). -/
theorem tie_break_first_encountered_witness :
    (∃ v w : String,
      v ∈ flatQualWords ([catDog, dogCat].map (fun t => t.name)) ∧
      w ∈ flatQualWords ([catDog, dogCat].map (fun t => t.name)) ∧ v ≠ w ∧
      occCount v (flatQualWords ([catDog, dogCat].map (fun t => t.name))) =
        maxOcc (flatQualWords ([catDog, dogCat].map (fun t => t.name))) ∧
      occCount w (flatQualWords ([catDog, dogCat].map (fun t => t.name))) =
        maxOcc (flatQualWords ([catDog, dogCat].map (fun t => t.name)))) ∧
    some (findMetaPattern [catDog, dogCat]).meta =
      ((flatQualWords ([catDog, dogCat].map (fun t => t.name))).filter
        (fun u => decide
          (occCount u (flatQualWords ([catDog, dogCat].map (fun t => t.name))) =
            maxOcc (flatQualWords ([catDog, dogCat].map (fun t => t.name)))))).head? :=
  ⟨⟨"CAT", "DOG", by decide⟩,
   tie_break_first_encountered [catDog, dogCat] ⟨"CAT", "DOG", by decide⟩⟩

end Hunter
